import Mathlib

/-!
Shallow embedding of the buffer-management core of the `e2` 2D rendering
layer, together with theorems settling the spec claims about it.

The embedded components are:
* `GrowingBufferArena` (`src/growing.rs`): a pool of fixed-capacity GPU
  buffers handing out bump-allocated sub-ranges, growing by whole buffers.
* The instance-buffer pool of `BatchRenderer` (`src/batch_render.rs`):
  a free-list of storage buffers selected by best-fit.
* `DrawArray` (`src/draw.rs`): a persistent instance-record buffer with
  grow-on-demand updates and an identity used as a bind-cache key.
* `BindCache` (`src/bind_cache.rs`): a map from `u64` keys to lazily
  created bind-group handles.

Machine integers (`u64`, `usize`) are modelled as `Nat`.  All the
quantities involved (cursors, sizes, lengths, counters) are only ever
increased by bounded amounts from zero in the source, and the arithmetic
facts proved here show overflow is not reached along the modelled paths,
so `Nat` agrees with the wrapped machine arithmetic on them; where the
source computes the `u64` difference `desc.size - cursor` we use
truncated `Nat` subtraction, which coincides with the machine value
whenever `cursor ≤ desc.size` (the arena invariant proved below).
GPU handles (`wgpu::Buffer`, `wgpu::BindGroup`) carry no observable data
relevant to the claims; buffers are identified by their slot index and
bind groups by a numeric handle.
-/

namespace E2

/-! ## GrowingBufferArena (`src/growing.rs`)

The Rust state is `buffers: Vec<(Arc<wgpu::Buffer>, u64)>` (a buffer
handle and its cursor) plus a fixed `desc` whose only field read by the
allocation logic is `desc.size`.  A slot's buffer handle is determined
by the slot index, so the state is the list of cursors in creation
order plus the configured per-buffer size. -/

/-- Arena state: `buffers` holds the cursor of each slot in creation
order; `descSize` is `desc.size`, the fixed capacity of every buffer. -/
structure Arena where
  buffers : List Nat
  descSize : Nat
  deriving Repr, DecidableEq

/-- Result of `GrowingBufferArena::allocate`: the sub-buffer offset and
the slot index (`ArenaAllocation { buffer, offset, index }`; the
`buffer` handle is the one of slot `index`). -/
structure ArenaAllocation where
  offset : Nat
  index : Nat
  deriving Repr, DecidableEq

/-- `GrowingBufferArena::new`: one buffer, cursor `0`. -/
def Arena.new (descSize : Nat) : Arena :=
  ⟨[0], descSize⟩

/-- Cursor of slot `i` (`self.buffers[i].1`). -/
def Arena.cursorOf (a : Arena) (i : Nat) : Nat :=
  a.buffers.getD i 0

/-- The `for` loop inside `allocate`: scan the cursors in creation
order for the first slot with `size <= desc.size - cursor`; on a hit
return `(offset, slot index, updated cursor list)` where the offset is
the old cursor and the cursor advances by `size`.  `none` means the
loop fell through. -/
def allocScan (descSize size : Nat) : List Nat → Option (Nat × Nat × List Nat)
  | [] => none
  | c :: rest =>
    if size ≤ descSize - c then
      some (c, 0, (c + size) :: rest)
    else
      match allocScan descSize size rest with
      | some (off, i, rest') => some (off, i + 1, c :: rest')
      | none => none

/-- `GrowingBufferArena::grow`: push a fresh buffer with cursor `0`. -/
def Arena.grow (a : Arena) : Arena :=
  ⟨a.buffers ++ [0], a.descSize⟩

/-- `GrowingBufferArena::allocate`.  The Rust function first asserts
`size <= self.desc.size` (`assert!` is its first statement, so a
violation panics with the arena untouched: modelled by `Except.error`
carrying the unchanged state).  It then runs the scan loop; if the loop
falls through it calls `grow` and recurses.  The recursive call is
unfolded once here: its assert passes again and its scan runs over the
grown list.  The final `none` branch is unreachable — the retried scan
reaches the fresh buffer, whose cursor is `0`, and `size ≤ descSize`
holds, as `allocScan_append_zero_isSome` proves below — so the
recursion stops after exactly one growth (theorem
`allocate_first_fit_single_growth`). -/
def Arena.allocate (a : Arena) (size : Nat) :
    Except Arena (ArenaAllocation × Arena) :=
  if size ≤ a.descSize then
    match allocScan a.descSize size a.buffers with
    | some (off, i, bufs) => .ok (⟨off, i⟩, ⟨bufs, a.descSize⟩)
    | none =>
      match allocScan a.descSize size (a.grow).buffers with
      | some (off, i, bufs) => .ok (⟨off, i⟩, ⟨bufs, a.descSize⟩)
      | none => .error a
  else .error a

/-- `GrowingBufferArena::free`: reset every cursor to zero. -/
def Arena.free (a : Arena) : Arena :=
  ⟨a.buffers.map (fun _ => 0), a.descSize⟩

/-- The arena invariant stated by the spec: every cursor stays within
the per-buffer capacity. -/
def Arena.WF (a : Arena) : Prop :=
  ∀ c ∈ a.buffers, c ≤ a.descSize

/-- An allocation together with the size it was requested with, as
recorded by a caller (`(offset, size, slot index)`). -/
structure AllocRecord where
  offset : Nat
  size : Nat
  index : Nat
  deriving Repr, DecidableEq

/-- Run a sequence of `allocate` calls, recording each returned
allocation with its requested size.  An assertion failure aborts the
whole run (`Except` threading). -/
def Arena.allocList (a : Arena) :
    List Nat → Except Arena (List AllocRecord × Arena)
  | [] => .ok ([], a)
  | s :: rest => do
      let (al, a') ← a.allocate s
      let (l, a'') ← a'.allocList rest
      pure (⟨al.offset, s, al.index⟩ :: l, a'')

/-! ## DrawArray (`src/draw.rs`)

`DrawArray<D>` keeps a GPU buffer `buf`, a logical length `len`, a byte
`capacity` and an `id` drawn from the global atomic counter
`NEXT_DRAW_ARRAY_ID` (`fetch_add(1, SeqCst)`).  The counter is modelled
as an explicitly threaded `Nat`; `fetch_add` returns the old value and
increments.  The serialized size of one record is
`GpuDraw::std430_size_static()`: `GpuDraw` is `{ color: vec4<f32>,
src_rect: vec4<f32>, transform: mat4x4<f32> }`, whose std430 layout is
16 + 16 + 64 = 96 bytes. -/

/-- `GpuDraw::std430_size_static()`: std430 size of
`{vec4, vec4, mat4x4}` = 96 bytes. -/
def gpuDrawStd430Size : Nat := 96

/-- `DrawArray` state: logical length, byte capacity, identity.  The
backing buffer handle is determined by the identity history (a fresh
buffer is created exactly when a fresh identity is assigned, plus at
construction), so it is not modelled separately. -/
structure DrawArray where
  len : Nat
  capacity : Nat
  id : Nat
  deriving Repr, DecidableEq

/-- `DrawArray::new` with `n` records, given the current value of
`NEXT_DRAW_ARRAY_ID`: a fresh buffer of `96 * n` bytes, id from the
counter; returns the array and the bumped counter. -/
def DrawArray.new (counter n : Nat) : DrawArray × Nat :=
  (⟨n, gpuDrawStd430Size * n, counter⟩, counter + 1)

/-- `DrawArray::update` with `n` records: recompute the byte size; if
it exceeds the capacity, recreate the buffer at the new size with a
fresh id from the counter, else write in place (same buffer, same id,
same capacity).  `len` is set to `n` in both branches.  Returns the
updated array and counter. -/
def DrawArray.update (counter : Nat) (a : DrawArray) (n : Nat) :
    DrawArray × Nat :=
  let size := gpuDrawStd430Size * n
  if size > a.capacity then
    (⟨n, size, counter⟩, counter + 1)
  else
    (⟨n, a.capacity, a.id⟩, counter)

/-- `DrawArray::set(at, draw)`: `assert!(at < self.len)` (panic
modelled as `none`), then one `write_buffer` of the record's bytes at
byte offset `at * GpuDraw::std430_size_static()`; the write is
returned as `(byte offset, byte count)`. -/
def DrawArray.set (a : DrawArray) (at_ : Nat) : Option (Nat × Nat) :=
  if at_ < a.len then
    some (at_ * gpuDrawStd430Size, gpuDrawStd430Size)
  else
    none

/-! ## BindCache (`src/bind_cache.rs`)

`BindCache` is a `HashMap<u64, Arc<wgpu::BindGroup>>`; `get` is
`self.cache.entry(key).or_insert_with(|| create(...)).clone()`.  The
map is modelled as an association list (insertion order is irrelevant
to lookup on distinct `Nat` keys), a bind-group handle as a `Nat`, and
the creation call `cx.device.create_bind_group(or_insert)` as drawing
a fresh handle from an external supply `fresh`, with a `Bool` flag
reporting whether the creation closure ran. -/

/-- `HashMap::get`-style lookup of the first binding of `key`. -/
def cacheLookup (key : Nat) : List (Nat × Nat) → Option Nat
  | [] => none
  | (k, v) :: rest => if k = key then some v else cacheLookup key rest

/-- `BindCache::get`: return the handle at `key` if present, otherwise
create (`fresh` stands for the newly created GPU handle), insert at
`key`, and return it.  The result is the handle, the updated cache and
whether a creation call was made. -/
def BindCache.get (cache : List (Nat × Nat)) (key fresh : Nat) :
    Nat × List (Nat × Nat) × Bool :=
  match cacheLookup key cache with
  | some v => (v, cache, false)
  | none => (fresh, (key, fresh) :: cache, true)

/-- Run a sequence of `get` calls against a cache; `supply` numbers the
creation calls so every created handle is distinct.  Returns the trace
of `(key, handle, created?)` triples and the final cache. -/
def BindCache.getMany (cache : List (Nat × Nat)) (supply : Nat) :
    List Nat → List (Nat × Nat × Bool) × List (Nat × Nat)
  | [] => ([], cache)
  | k :: rest =>
      let (h, cache', created) := BindCache.get cache k supply
      let (tr, cf) :=
        BindCache.getMany cache' (if created then supply + 1 else supply) rest
      ((k, h, created) :: tr, cf)

/-- Number of creation calls made for `key` along a trace. -/
def creationsFor (key : Nat) (tr : List (Nat × Nat × Bool)) : Nat :=
  (tr.filter (fun e => e.1 = key && e.2.2 = true)).length

/-! ## BatchRenderer instance-buffer pool (`src/batch_render.rs`)

`BatchRenderer::draw` computes `size = 96 * draws.len()` and picks an
`InstanceBuffer { buffer, size, free }` from `self.instances` by
`iter_mut().enumerate().filter(|(_, x)| x.free && x.size >= size)
.min_by(|(_, x), (_, y)| x.size.cmp(&y.size))`; Rust's `min_by`
returns the first of equally-minimum elements.  On a hit the buffer is
marked non-free and reused; otherwise a new buffer of exactly `size`
bytes is created, pushed, and used (already non-free).
`BatchRenderer::free` sets every buffer's `free` flag. -/

/-- One pool entry: byte size and free flag (the `wgpu::Buffer` handle
is determined by the pool index, buffers are never removed). -/
structure InstanceBuffer where
  size : Nat
  free : Bool
  deriving Repr, DecidableEq

/-- The `filter(..).min_by(..)` chain over the enumerated pool: `i`
is the index of the next element, `acc` the best `(index, size)` so
far.  An eligible element (`free && size ≥ request`) replaces `acc`
only when strictly smaller, matching `min_by` keeping the first of
equal minima. -/
def minFreeFitAux (request : Nat) : Nat → List InstanceBuffer →
    Option (Nat × Nat) → Option (Nat × Nat)
  | _, [], acc => acc
  | i, b :: rest, acc =>
      minFreeFitAux request (i + 1) rest
        (if b.free && request ≤ b.size then
          match acc with
          | none => some (i, b.size)
          | some (j, s) => if b.size < s then some (i, b.size) else some (j, s)
        else acc)

/-- Index of the best-fit free buffer for `request`, if any. -/
def minFreeFit (pool : List InstanceBuffer) (request : Nat) : Option Nat :=
  (minFreeFitAux request 0 pool none).map Prod.fst

/-- `buf.free = false` on the element at index `i`. -/
def markNonFree : Nat → List InstanceBuffer → List InstanceBuffer
  | _, [] => []
  | 0, b :: rest => ⟨b.size, false⟩ :: rest
  | i + 1, b :: rest => b :: markNonFree i rest

/-- The buffer-selection part of `BatchRenderer::draw` for a batch of
`size` bytes: best-fit reuse when possible, else push a new buffer of
exactly `size` bytes, non-free.  Returns the chosen pool index and the
updated pool. -/
def drawSelect (pool : List InstanceBuffer) (size : Nat) :
    Nat × List InstanceBuffer :=
  match minFreeFit pool size with
  | some i => (i, markNonFree i pool)
  | none => (pool.length, pool ++ [⟨size, false⟩])

/-- `BatchRenderer::free`: mark every pool buffer free. -/
def freePool (pool : List InstanceBuffer) : List InstanceBuffer :=
  pool.map (fun b => ⟨b.size, true⟩)

/-! ## Lemmas about the arena scan -/

/-- A successful scan hit is the first fitting slot: the hit index is in
range, the offset is that slot's old cursor, the slot fits, only that
cursor advances (by `size`), and no earlier slot fits. -/
theorem allocScan_eq_some (d s : Nat) :
    ∀ (bufs : List Nat) (off i : Nat) (bufs' : List Nat),
    allocScan d s bufs = some (off, i, bufs') →
    i < bufs.length ∧ off = bufs.getD i 0 ∧ s ≤ d - off ∧
      bufs' = bufs.set i (off + s) ∧
      ∀ j, j < i → ¬ s ≤ d - bufs.getD j 0 := by
  intro bufs
  induction bufs with
  | nil => intro off i bufs' h; simp [allocScan] at h
  | cons c rest ih =>
      intro off i bufs' h
      by_cases hc : s ≤ d - c
      · rw [allocScan, if_pos hc] at h
        obtain ⟨rfl, rfl, rfl⟩ :
            c = off ∧ 0 = i ∧ ((c + s) :: rest) = bufs' := by
          simpa using h
        refine ⟨by simp, rfl, hc, rfl, ?_⟩
        intro j hj; omega
      · rw [allocScan, if_neg hc] at h
        cases hrec : allocScan d s rest with
        | none => rw [hrec] at h; simp at h
        | some v =>
            obtain ⟨off0, i0, rest'⟩ := v
            rw [hrec] at h
            obtain ⟨rfl, rfl, rfl⟩ :
                off0 = off ∧ i0 + 1 = i ∧ (c :: rest') = bufs' := by
              simpa using h
            obtain ⟨h1, h2, h3, h4, h5⟩ := ih off0 i0 rest' hrec
            refine ⟨by simpa using h1, by simpa using h2, h3,
              by simp [h4], ?_⟩
            intro j hj
            cases j with
            | zero => simpa using hc
            | succ j' => simpa using h5 j' (by omega)

/-- A fallen-through scan means no slot fits. -/
theorem allocScan_eq_none (d s : Nat) :
    ∀ bufs, allocScan d s bufs = none → ∀ c ∈ bufs, ¬ s ≤ d - c := by
  intro bufs
  induction bufs with
  | nil => intro _ c hc; simp at hc
  | cons c rest ih =>
      intro h c' hc'
      by_cases hc : s ≤ d - c
      · rw [allocScan, if_pos hc] at h; simp at h
      · rw [allocScan, if_neg hc] at h
        cases hrec : allocScan d s rest with
        | none =>
            rcases List.mem_cons.mp hc' with rfl | hmem
            · exact hc
            · exact ih hrec c' hmem
        | some v => rw [hrec] at h; simp at h

/-- When no existing slot fits but the request is compliant, the scan
over the grown list lands on the fresh slot: offset `0`, index equal to
the old slot count, fresh cursor `s`. -/
theorem allocScan_append_zero (d s : Nat) (hs : s ≤ d) :
    ∀ bufs, (∀ c ∈ bufs, ¬ s ≤ d - c) →
    allocScan d s (bufs ++ [0]) = some (0, bufs.length, bufs ++ [s]) := by
  intro bufs
  induction bufs with
  | nil => intro _; simp [allocScan, hs]
  | cons c rest ih =>
      intro hno
      have hc : ¬ s ≤ d - c := hno c (by simp)
      have hrest : allocScan d s (rest ++ [0]) =
          some (0, rest.length, rest ++ [s]) :=
        ih (fun c' hc' => hno c' (by simp [hc']))
      rw [List.cons_append, allocScan, if_neg hc, hrest]
      simp

/-- The retried scan after `grow` always succeeds for a compliant
request (so `allocate`'s final fallback branch is unreachable). -/
theorem allocScan_append_zero_isSome (d s : Nat) (h : s ≤ d)
    (bufs : List Nat) : (allocScan d s (bufs ++ [0])).isSome := by
  induction bufs with
  | nil =>
      simp only [List.nil_append, allocScan]
      rw [if_pos (by simpa using h)]
      rfl
  | cons c rest ih =>
      simp only [List.cons_append, allocScan]
      by_cases hc : s ≤ d - c
      · rw [if_pos hc]; rfl
      · rw [if_neg hc]
        cases hrec : allocScan d s (rest ++ [0]) with
        | none => rw [hrec] at ih; simp at ih
        | some v => rfl

/-! ## Lemmas about `Arena.allocate` -/

/-- Unfolding `allocate` when the in-place scan hits. -/
theorem Arena.allocate_of_scan_some (a : Arena) {s off i : Nat}
    {bufs : List Nat} (hs : s ≤ a.descSize)
    (h : allocScan a.descSize s a.buffers = some (off, i, bufs)) :
    a.allocate s = .ok (⟨off, i⟩, ⟨bufs, a.descSize⟩) := by
  rw [Arena.allocate, if_pos hs, h]

/-- Unfolding `allocate` when the in-place scan falls through: the
arena grows by one buffer and the retry lands on it. -/
theorem Arena.allocate_of_scan_none (a : Arena) {s : Nat}
    (hs : s ≤ a.descSize) (h : allocScan a.descSize s a.buffers = none) :
    a.allocate s =
      .ok (⟨0, a.buffers.length⟩, ⟨a.buffers ++ [s], a.descSize⟩) := by
  have hg : allocScan a.descSize s ((a.grow).buffers) =
      some (0, a.buffers.length, a.buffers ++ [s]) :=
    allocScan_append_zero a.descSize s hs a.buffers
      (allocScan_eq_none a.descSize s a.buffers h)
  rw [Arena.allocate, if_pos hs, h, hg]

/-- Inversion for a successful `allocate`: the request was compliant
and the result came either from an in-place scan hit or from a single
growth step. -/
theorem Arena.allocate_eq_ok (a : Arena) {s : Nat}
    {al : ArenaAllocation} {a' : Arena} (h : a.allocate s = .ok (al, a')) :
    s ≤ a.descSize ∧ a'.descSize = a.descSize ∧
      (allocScan a.descSize s a.buffers =
          some (al.offset, al.index, a'.buffers) ∨
        (allocScan a.descSize s a.buffers = none ∧ al.offset = 0 ∧
          al.index = a.buffers.length ∧ a'.buffers = a.buffers ++ [s])) := by
  by_cases hs : s ≤ a.descSize
  · cases hscan : allocScan a.descSize s a.buffers with
    | some v =>
        obtain ⟨off, i, bufs⟩ := v
        rw [a.allocate_of_scan_some hs hscan] at h
        have hpair := Except.ok.inj h
        have hal : al = ⟨off, i⟩ := (congrArg Prod.fst hpair).symm
        have ha' : a' = ⟨bufs, a.descSize⟩ := (congrArg Prod.snd hpair).symm
        refine ⟨hs, by rw [ha'], Or.inl ?_⟩
        rw [hal, ha']
    | none =>
        rw [a.allocate_of_scan_none hs hscan] at h
        have hpair := Except.ok.inj h
        have hal : al = ⟨0, a.buffers.length⟩ :=
          (congrArg Prod.fst hpair).symm
        have ha' : a' = ⟨a.buffers ++ [s], a.descSize⟩ :=
          (congrArg Prod.snd hpair).symm
        refine ⟨hs, by rw [ha'], Or.inr ⟨rfl, ?_, ?_, ?_⟩⟩
        · rw [hal]
        · rw [hal]
        · rw [ha']
  · rw [Arena.allocate, if_neg hs] at h
    simp at h

/-- Effect of one successful `allocate` on the cursors: slot count is
nondecreasing, the hit slot's cursor becomes `offset + size`, every
pre-existing cursor is nondecreasing, and if the hit slot already
existed its old cursor is exactly the returned offset. -/
theorem Arena.allocate_step {a : Arena} {s : Nat} {al : ArenaAllocation}
    {a' : Arena} (h : a.allocate s = .ok (al, a')) :
    a.buffers.length ≤ a'.buffers.length ∧
      al.index < a'.buffers.length ∧
      a'.cursorOf al.index = al.offset + s ∧
      (∀ i, i < a.buffers.length → a.cursorOf i ≤ a'.cursorOf i) ∧
      (al.index < a.buffers.length → a.cursorOf al.index = al.offset) := by
  obtain ⟨hs, hd, hcase | hcase⟩ := a.allocate_eq_ok h
  · obtain ⟨hlt, hoff, hfit, hset, _⟩ :=
      allocScan_eq_some a.descSize s a.buffers al.offset al.index
        a'.buffers hcase
    have hlen : a'.buffers.length = a.buffers.length := by
      rw [hset]; simp
    refine ⟨by omega, by omega, ?_, ?_, fun _ => hoff.symm⟩
    · show a'.buffers.getD al.index 0 = al.offset + s
      rw [hset]
      simp [List.getD_eq_getElem _ 0, List.getElem_set, hlt]
    · intro i hi
      show a.buffers.getD i 0 ≤ a'.buffers.getD i 0
      rw [hset]
      by_cases hie : i = al.index
      · subst hie
        rw [show (a.buffers.set al.index (al.offset + s)).getD al.index 0 =
              al.offset + s from by
            simp [List.getD_eq_getElem _ 0, List.getElem_set, hlt], ← hoff]
        omega
      · rw [show (a.buffers.set al.index (al.offset + s)).getD i 0 =
            a.buffers.getD i 0 from by
          simp [List.getD, List.getElem?_set, Ne.symm hie]]
  · obtain ⟨hscan, hoff, hidx, hbufs⟩ := hcase
    have hlen : a'.buffers.length = a.buffers.length + 1 := by
      rw [hbufs]; simp
    refine ⟨by omega, by omega, ?_, ?_, fun hcon => by omega⟩
    · show a'.buffers.getD al.index 0 = al.offset + s
      rw [hbufs, hidx, hoff]
      simp [List.getD]
    · intro i hi
      show a.buffers.getD i 0 ≤ a'.buffers.getD i 0
      rw [hbufs, show (a.buffers ++ [s]).getD i 0 = a.buffers.getD i 0 from
        by simp [List.getD, List.getElem?_append_left hi]]

/-- `allocate` preserves the arena invariant. -/
theorem Arena.allocate_WF {a : Arena} {s : Nat} {al : ArenaAllocation}
    {a' : Arena} (hwf : a.WF) (h : a.allocate s = .ok (al, a')) :
    a'.WF := by
  obtain ⟨hs, hd, hcase | hcase⟩ := a.allocate_eq_ok h
  · obtain ⟨hlt, hoff, hfit, hset, _⟩ :=
      allocScan_eq_some a.descSize s a.buffers al.offset al.index
        a'.buffers hcase
    intro c hc
    rw [hset] at hc
    rcases List.mem_or_eq_of_mem_set hc with hmem | rfl
    · rw [hd]; exact hwf c hmem
    · have hoffle : al.offset ≤ a.descSize := by
        have : a.buffers.getD al.index 0 ∈ a.buffers := by
          rw [List.getD_eq_getElem _ 0 hlt]
          exact List.getElem_mem hlt
        rw [hoff]; exact hwf _ this
      rw [hd]; omega
  · obtain ⟨hscan, hoff, hidx, hbufs⟩ := hcase
    intro c hc
    rw [hbufs] at hc
    rw [hd]
    rcases List.mem_append.mp hc with hmem | hmem
    · exact hwf c hmem
    · simp at hmem; omega

/-- A freshly constructed arena satisfies the invariant. -/
theorem Arena.new_WF (descSize : Nat) : (Arena.new descSize).WF := by
  intro c hc
  simp [Arena.new] at hc
  omega

/-- `free` re-establishes the invariant from any state. -/
theorem Arena.free_WF (a : Arena) : (a.free).WF := by
  intro c hc
  simp [Arena.free] at hc
  omega

/-! ## Claim theorems about the arena -/

/-- C1: for every `GrowingBufferArena` satisfying the arena invariant
(`cursor ≤ desc.size` in every slot, which `new`, `allocate` and
`free` all preserve) and every successful `allocate(size)` call, the
returned allocation satisfies `offset + size ≤ desc.size` (the slot's
fixed capacity), and the cursor of the slot it was placed in equals
`offset + size` after the call. -/
theorem Arena.allocate_within_capacity (a : Arena) (size : Nat)
    (al : ArenaAllocation) (a' : Arena) (hwf : a.WF)
    (h : a.allocate size = .ok (al, a')) :
    al.offset + size ≤ a.descSize ∧
      a'.cursorOf al.index = al.offset + size := by
  have step := Arena.allocate_step h
  obtain ⟨hs, hd, hcase | hcase⟩ := a.allocate_eq_ok h
  · obtain ⟨hlt, hoff, hfit, hset, _⟩ :=
      allocScan_eq_some a.descSize size a.buffers al.offset al.index
        a'.buffers hcase
    have hoffle : al.offset ≤ a.descSize := by
      have hmem : a.buffers.getD al.index 0 ∈ a.buffers := by
        rw [List.getD_eq_getElem _ 0 hlt]
        exact List.getElem_mem hlt
      rw [hoff]; exact hwf _ hmem
    exact ⟨by omega, step.2.2.1⟩
  · obtain ⟨_, hoff, _, _⟩ := hcase
    exact ⟨by rw [hoff]; omega, step.2.2.1⟩

/-- Witness for C1 at a concrete arena: one slot of capacity 10 at
cursor 0, request of 4 bytes. -/
theorem Arena.allocate_within_capacity_check :
    (⟨0, 0⟩ : ArenaAllocation).offset + 4 ≤ (⟨[0], 10⟩ : Arena).descSize ∧
      (⟨[4], 10⟩ : Arena).cursorOf (⟨0, 0⟩ : ArenaAllocation).index =
        (⟨0, 0⟩ : ArenaAllocation).offset + 4 :=
  Arena.allocate_within_capacity ⟨[0], 10⟩ 4 ⟨0, 0⟩ ⟨[4], 10⟩
    (by intro c hc; simp at hc; omega) (by rfl)

/-- C2: `allocate(size)` with a compliant `size` always succeeds
(termination after at most one growth step).  When some slot fits
(`size ≤ desc.size - cursor`), the result comes from the first such
slot in creation order (first-fit, not best-fit), at that slot's
cursor, and no buffer is appended; when no slot fits, exactly one new
buffer is appended and the retried allocation succeeds on it, at
offset 0. -/
theorem Arena.allocate_first_fit_single_growth (a : Arena) (size : Nat)
    (h : size ≤ a.descSize) :
    ∃ al a', a.allocate size = .ok (al, a') ∧
      ((∃ j, j < a.buffers.length ∧ size ≤ a.descSize - a.cursorOf j) →
        al.index < a.buffers.length ∧
        size ≤ a.descSize - a.cursorOf al.index ∧
        (∀ j, j < al.index → ¬ size ≤ a.descSize - a.cursorOf j) ∧
        al.offset = a.cursorOf al.index ∧
        a'.buffers.length = a.buffers.length) ∧
      ((∀ j, j < a.buffers.length → ¬ size ≤ a.descSize - a.cursorOf j) →
        a'.buffers.length = a.buffers.length + 1 ∧
        al.index = a.buffers.length ∧ al.offset = 0) := by
  cases hscan : allocScan a.descSize size a.buffers with
  | some v =>
      obtain ⟨off, i, bufs⟩ := v
      obtain ⟨hlt, hoff, hfit, hset, hfirst⟩ :=
        allocScan_eq_some a.descSize size a.buffers off i bufs hscan
      refine ⟨⟨off, i⟩, ⟨bufs, a.descSize⟩,
        a.allocate_of_scan_some h hscan, ?_, ?_⟩
      · intro _
        refine ⟨hlt, ?_, ?_, ?_, ?_⟩
        · show size ≤ a.descSize - a.buffers.getD i 0
          rw [← hoff]; exact hfit
        · intro j hj; exact hfirst j hj
        · show off = a.buffers.getD i 0
          exact hoff
        · show bufs.length = a.buffers.length
          rw [hset]; simp
      · intro hnone
        exact absurd (by rw [hoff] at hfit; exact hfit) (hnone i hlt)
  | none =>
      have hnofit := allocScan_eq_none a.descSize size a.buffers hscan
      refine ⟨⟨0, a.buffers.length⟩, ⟨a.buffers ++ [size], a.descSize⟩,
        a.allocate_of_scan_none h hscan, ?_, ?_⟩
      · rintro ⟨j, hj, hfit⟩
        refine absurd hfit (hnofit _ ?_)
        show a.buffers.getD j 0 ∈ a.buffers
        rw [List.getD_eq_getElem _ 0 hj]
        exact List.getElem_mem hj
      · intro _
        exact ⟨by simp, rfl, rfl⟩

/-- Witness for C2 at a concrete arena: slots at cursors `[9, 0]` with
capacity 10 and a request of 4 bytes (slot 0 does not fit, slot 1
does). -/
theorem Arena.allocate_first_fit_single_growth_check :
    ∃ al a', Arena.allocate ⟨[9, 0], 10⟩ 4 = .ok (al, a') ∧
      ((∃ j, j < (⟨[9, 0], 10⟩ : Arena).buffers.length ∧
          4 ≤ (⟨[9, 0], 10⟩ : Arena).descSize -
            (⟨[9, 0], 10⟩ : Arena).cursorOf j) →
        al.index < (⟨[9, 0], 10⟩ : Arena).buffers.length ∧
        4 ≤ (⟨[9, 0], 10⟩ : Arena).descSize -
          (⟨[9, 0], 10⟩ : Arena).cursorOf al.index ∧
        (∀ j, j < al.index →
          ¬ 4 ≤ (⟨[9, 0], 10⟩ : Arena).descSize -
            (⟨[9, 0], 10⟩ : Arena).cursorOf j) ∧
        al.offset = (⟨[9, 0], 10⟩ : Arena).cursorOf al.index ∧
        a'.buffers.length = (⟨[9, 0], 10⟩ : Arena).buffers.length) ∧
      ((∀ j, j < (⟨[9, 0], 10⟩ : Arena).buffers.length →
          ¬ 4 ≤ (⟨[9, 0], 10⟩ : Arena).descSize -
            (⟨[9, 0], 10⟩ : Arena).cursorOf j) →
        a'.buffers.length = (⟨[9, 0], 10⟩ : Arena).buffers.length + 1 ∧
        al.index = (⟨[9, 0], 10⟩ : Arena).buffers.length ∧
        al.offset = 0) :=
  Arena.allocate_first_fit_single_growth ⟨[9, 0], 10⟩ 4 (by decide)

/-- C6: after `free()` every slot cursor is zero, and the next
compliant `allocate(size)` returns offset 0 of slot 0. -/
theorem Arena.free_then_allocate_offset_zero (a : Arena) (size : Nat)
    (h : size ≤ a.descSize) :
    (∀ c ∈ (a.free).buffers, c = 0) ∧
      ∃ a', (a.free).allocate size = .ok (⟨0, 0⟩, a') := by
  constructor
  · intro c hc
    simp [Arena.free] at hc
    exact hc.2
  · have hd : (a.free).descSize = a.descSize := rfl
    cases hb : a.buffers with
    | nil =>
        have hbf : (a.free).buffers = [] := by simp [Arena.free, hb]
        refine ⟨⟨(a.free).buffers ++ [size], (a.free).descSize⟩, ?_⟩
        have := (a.free).allocate_of_scan_none (s := size) (by rw [hd]; exact h)
          (by rw [hbf]; rfl)
        rw [hbf] at this ⊢
        exact this
    | cons c rest =>
        have hbf : (a.free).buffers = 0 :: rest.map (fun _ => 0) := by
          simp [Arena.free, hb]
        have hscan : allocScan (a.free).descSize size (a.free).buffers =
            some (0, 0, (0 + size) :: rest.map (fun _ => 0)) := by
          rw [hbf, allocScan, if_pos (by rw [hd]; simpa using h)]
        exact ⟨⟨(0 + size) :: rest.map (fun _ => 0), (a.free).descSize⟩,
          (a.free).allocate_of_scan_some (by rw [hd]; exact h) hscan⟩

/-- Witness for C6 at a concrete arena: cursors `[7, 3]`, capacity 10,
request of 10 bytes after `free()`. -/
theorem Arena.free_then_allocate_offset_zero_check :
    (∀ c ∈ ((⟨[7, 3], 10⟩ : Arena).free).buffers, c = 0) ∧
      ∃ a', ((⟨[7, 3], 10⟩ : Arena).free).allocate 10 = .ok (⟨0, 0⟩, a') :=
  Arena.free_then_allocate_offset_zero ⟨[7, 3], 10⟩ 10 (by decide)

/-- C8: `allocate(size)` with `size > desc.size` fails the leading
`assert!` and panics; the assert is the first statement of `allocate`,
so the arena state at the panic is exactly the pre-call state (the
`Except.error` payload), with no cursor changed and no buffer
appended. -/
theorem Arena.allocate_oversize_panics (a : Arena) (size : Nat)
    (h : a.descSize < size) :
    a.allocate size = .error a := by
  rw [Arena.allocate, if_neg (by omega)]

/-- Witness for C8: capacity 10, request 11. -/
theorem Arena.allocate_oversize_panics_check :
    Arena.allocate ⟨[0], 10⟩ 11 = .error ⟨[0], 10⟩ :=
  Arena.allocate_oversize_panics ⟨[0], 10⟩ 11 (by decide)

/-! ## Disjointness of allocations issued between two `free()` calls -/

/-- A single `allocate` keeps every previously issued allocation below
its slot's cursor, and any new allocation from the same slot starts at
or after the end of the previous one. -/
theorem Arena.allocate_good_step {a : Arena} {s : Nat}
    {al : ArenaAllocation} {a' : Arena} (h : a.allocate s = .ok (al, a'))
    (r : AllocRecord) (hidx : r.index < a.buffers.length)
    (hend : r.offset + r.size ≤ a.cursorOf r.index) :
    (r.index < a'.buffers.length ∧
      r.offset + r.size ≤ a'.cursorOf r.index) ∧
      (r.index = al.index → r.offset + r.size ≤ al.offset) := by
  obtain ⟨hlen, hilt, hcur, hmono, hpre⟩ := Arena.allocate_step h
  refine ⟨⟨lt_of_lt_of_le hidx hlen, le_trans hend (hmono _ hidx)⟩, ?_⟩
  intro he
  have hlt : al.index < a.buffers.length := he ▸ hidx
  calc r.offset + r.size ≤ a.cursorOf r.index := hend
    _ = a.cursorOf al.index := by rw [he]
    _ = al.offset := hpre hlt

/-- Every allocation already below its slot's cursor precedes (in the
byte range sense) every allocation later issued from the same slot. -/
theorem Arena.allocList_before {sizes : List Nat} :
    ∀ {a : Arena} {l : List AllocRecord} {a' : Arena},
    a.allocList sizes = .ok (l, a') →
    ∀ r : AllocRecord, r.index < a.buffers.length →
    r.offset + r.size ≤ a.cursorOf r.index →
    ∀ r' ∈ l, r.index = r'.index → r.offset + r.size ≤ r'.offset := by
  induction sizes with
  | nil =>
      intro a l a' h r _ _ r' hr'
      obtain ⟨hl, _⟩ : ([] : List AllocRecord) = l ∧ a = a' := by
        simpa [Arena.allocList] using h
      rw [← hl] at hr'
      simp at hr'
  | cons s rest ih =>
      intro a l a' h r hidx hend r' hr' heq
      simp only [Arena.allocList, bind, Except.bind] at h
      cases halloc : a.allocate s with
      | error e => rw [halloc] at h; simp at h
      | ok v =>
          obtain ⟨al, a1⟩ := v
          rw [halloc] at h
          simp only at h
          cases hrest : a1.allocList rest with
          | error e => rw [hrest] at h; simp [pure, Except.pure] at h
          | ok w =>
              obtain ⟨l1, a2⟩ := w
              rw [hrest] at h
              simp only [pure, Except.pure] at h
              obtain ⟨hl, _⟩ :
                  (⟨al.offset, s, al.index⟩ : AllocRecord) :: l1 = l ∧
                    a2 = a' := by simpa using h
              obtain ⟨⟨hidx1, hend1⟩, hord⟩ :=
                Arena.allocate_good_step halloc r hidx hend
              rw [← hl] at hr'
              rcases List.mem_cons.mp hr' with rfl | hmem
              · exact hord heq
              · exact ih hrest r hidx1 hend1 r' hmem heq

/-- C10 (implicit): between two calls to `free()`, any two allocations
returned by `allocate` that carry the same slot index have disjoint
byte ranges — the earlier one ends at or before the later one begins.
Stated over an arbitrary starting arena and any sequence of requests
whose `allocate` calls all succeed. -/
theorem Arena.allocList_disjoint (a : Arena) (sizes : List Nat)
    (l : List AllocRecord) (a' : Arena)
    (h : a.allocList sizes = .ok (l, a')) :
    List.Pairwise
      (fun r1 r2 => r1.index = r2.index → r1.offset + r1.size ≤ r2.offset)
      l := by
  induction sizes generalizing a l a' with
  | nil =>
      obtain ⟨hl, _⟩ : ([] : List AllocRecord) = l ∧ a = a' := by
        simpa [Arena.allocList] using h
      rw [← hl]
      exact List.Pairwise.nil
  | cons s rest ih =>
      simp only [Arena.allocList, bind, Except.bind] at h
      cases halloc : a.allocate s with
      | error e => rw [halloc] at h; simp at h
      | ok v =>
          obtain ⟨al, a1⟩ := v
          rw [halloc] at h
          simp only at h
          cases hrest : a1.allocList rest with
          | error e => rw [hrest] at h; simp [pure, Except.pure] at h
          | ok w =>
              obtain ⟨l1, a2⟩ := w
              rw [hrest] at h
              simp only [pure, Except.pure] at h
              obtain ⟨hl, _⟩ :
                  (⟨al.offset, s, al.index⟩ : AllocRecord) :: l1 = l ∧
                    a2 = a' := by simpa using h
              obtain ⟨hlen, hilt, hcur, hmono, hpre⟩ :=
                Arena.allocate_step halloc
              rw [← hl]
              refine List.Pairwise.cons ?_ (ih a1 l1 a2 hrest)
              intro r' hmem heq
              exact Arena.allocList_before hrest ⟨al.offset, s, al.index⟩
                hilt (le_of_eq hcur.symm) r' hmem heq

/-- Witness for C10: capacity 10, three requests of 4 bytes; the first
two share slot 0 with ranges `[0,4)` and `[4,8)`, the third goes to a
fresh slot 1. -/
theorem Arena.allocList_disjoint_check :
    List.Pairwise
      (fun r1 r2 => r1.index = r2.index → r1.offset + r1.size ≤ r2.offset)
      [(⟨0, 4, 0⟩ : AllocRecord), ⟨4, 4, 0⟩, ⟨0, 4, 1⟩] :=
  Arena.allocList_disjoint ⟨[0], 10⟩ [4, 4, 4]
    [⟨0, 4, 0⟩, ⟨4, 4, 0⟩, ⟨0, 4, 1⟩] ⟨[8, 4], 10⟩ (by rfl)

/-! ## Claim theorems about `DrawArray` -/

/-- C4: `update` with a payload whose serialized size fits the current
capacity is an in-place write: same capacity, same `id()`, counter
untouched (and `len` set to the new record count).  A payload
exceeding the capacity reallocates: the capacity becomes the new size
and a fresh `id()` is taken from the global counter, so it differs
from every id previously assigned (previously assigned ids are
exactly those below the current counter value, since every assignment
hands out the counter and increments it). -/
theorem DrawArray.update_identity_policy (counter : Nat) (a : DrawArray)
    (n : Nat) :
    (gpuDrawStd430Size * n ≤ a.capacity →
      DrawArray.update counter a n = (⟨n, a.capacity, a.id⟩, counter)) ∧
      (a.capacity < gpuDrawStd430Size * n →
        (DrawArray.update counter a n).1.capacity = gpuDrawStd430Size * n ∧
        (DrawArray.update counter a n).1.id = counter ∧
        (DrawArray.update counter a n).2 = counter + 1 ∧
        ∀ p, p < counter → (DrawArray.update counter a n).1.id ≠ p) := by
  constructor
  · intro hfit
    simp only [DrawArray.update]
    rw [if_neg (by omega)]
  · intro hgrow
    simp only [DrawArray.update]
    rw [if_pos (by omega)]
    exact ⟨rfl, rfl, rfl, fun p hp => by simp; omega⟩

/-- Witness for C4: capacity 96 and counter 5; one record (96 bytes)
fits in place keeping id 3, two records (192 bytes) force a
reallocation with the fresh id 5 ≠ 3. -/
theorem DrawArray.update_identity_policy_check :
    DrawArray.update 5 ⟨1, 96, 3⟩ 1 = (⟨1, 96, 3⟩, 5) ∧
      ((DrawArray.update 5 ⟨1, 96, 3⟩ 2).1.id = 5 ∧
        (DrawArray.update 5 ⟨1, 96, 3⟩ 2).1.id ≠ 3) :=
  ⟨(DrawArray.update_identity_policy 5 ⟨1, 96, 3⟩ 1).1 (by decide),
    ⟨((DrawArray.update_identity_policy 5 ⟨1, 96, 3⟩ 2).2 (by decide)).2.1,
      ((DrawArray.update_identity_policy 5 ⟨1, 96, 3⟩ 2).2
        (by decide)).2.2.2 3 (by decide)⟩⟩

/-- C7: `set(index, record)` with `index ≥ len()` trips the
`assert!(at < self.len)` and panics deterministically (`none`); with
`index < len()` it performs exactly one write of one record's bytes
(96 bytes) at byte offset `index * 96`. -/
theorem DrawArray.set_index_contract (a : DrawArray) (i : Nat) :
    (a.len ≤ i → a.set i = none) ∧
      (i < a.len →
        a.set i = some (i * gpuDrawStd430Size, gpuDrawStd430Size)) := by
  constructor
  · intro hge
    rw [DrawArray.set, if_neg (by omega)]
  · intro hlt
    rw [DrawArray.set, if_pos hlt]

/-- Witness for C7: a 3-record array rejects index 3 and writes index 2
at byte offset 192. -/
theorem DrawArray.set_index_contract_check :
    DrawArray.set ⟨3, 288, 0⟩ 3 = none ∧
      DrawArray.set ⟨3, 288, 0⟩ 2 = some (192, 96) :=
  ⟨(DrawArray.set_index_contract ⟨3, 288, 0⟩ 3).1 (by decide),
    (DrawArray.set_index_contract ⟨3, 288, 0⟩ 2).2 (by decide)⟩

/-! ## Lemmas about `BindCache` -/

/-- After a `get`, the requested key is bound to the returned handle. -/
theorem BindCache.lookup_after_get (cache : List (Nat × Nat))
    (k f : Nat) :
    cacheLookup k (BindCache.get cache k f).2.1 =
      some (BindCache.get cache k f).1 := by
  cases hlook : cacheLookup k cache with
  | some v => simp [BindCache.get, hlook]
  | none => simp [BindCache.get, hlook, cacheLookup]

/-- `get` never changes an existing binding. -/
theorem BindCache.get_preserves (cache : List (Nat × Nat))
    (k f key v : Nat) (h : cacheLookup key cache = some v) :
    cacheLookup key (BindCache.get cache k f).2.1 = some v := by
  cases hlook : cacheLookup k cache with
  | some w => simp [BindCache.get, hlook, h]
  | none =>
      have hne : k ≠ key := fun he => by rw [he, h] at hlook; cases hlook
      simp [BindCache.get, hlook, cacheLookup, hne, h]

/-- Once a key is bound, every later `get` of it in a run returns the
bound handle without creating, and the binding survives the run. -/
theorem BindCache.getMany_hit (ks : List Nat) :
    ∀ (cache : List (Nat × Nat)) (supply key v : Nat),
    cacheLookup key cache = some v →
    (∀ e ∈ (BindCache.getMany cache supply ks).1,
        e.1 = key → e.2.1 = v ∧ e.2.2 = false) ∧
      cacheLookup key (BindCache.getMany cache supply ks).2 = some v := by
  induction ks with
  | nil =>
      intro cache supply key v h
      exact ⟨fun e he => by simp [BindCache.getMany] at he, by
        simpa [BindCache.getMany] using h⟩
  | cons k rest ih =>
      intro cache supply key v h
      cases hlook : cacheLookup k cache with
      | some w =>
          have ihr := ih cache supply key v h
          constructor
          · intro e he hk
            simp [BindCache.getMany, BindCache.get, hlook] at he
            rcases he with rfl | hmem
            · refine ⟨?_, rfl⟩
              simp at hk
              rw [hk] at hlook
              rw [h] at hlook
              exact (Option.some.inj hlook).symm
            · exact (ihr.1 e hmem) hk
          · simpa [BindCache.getMany, BindCache.get, hlook] using ihr.2
      | none =>
          have hne : k ≠ key := fun he => by rw [he, h] at hlook; cases hlook
          have h' : cacheLookup key ((k, supply) :: cache) = some v := by
            simp [cacheLookup, hne, h]
          have ihr := ih ((k, supply) :: cache) (supply + 1) key v h'
          constructor
          · intro e he hk
            simp [BindCache.getMany, BindCache.get, hlook] at he
            rcases he with rfl | hmem
            · exact absurd (by simpa using hk) hne
            · exact (ihr.1 e hmem) hk
          · simpa [BindCache.getMany, BindCache.get, hlook] using ihr.2

/-- Once a key is bound, no later `get` of it creates anything. -/
theorem BindCache.creations_zero (ks : List Nat)
    (cache : List (Nat × Nat)) (supply key v : Nat)
    (h : cacheLookup key cache = some v) :
    creationsFor key (BindCache.getMany cache supply ks).1 = 0 := by
  have hhit := (BindCache.getMany_hit ks cache supply key v h).1
  rw [creationsFor, List.length_eq_zero, List.filter_eq_nil_iff]
  intro e he hcontra
  simp at hcontra
  have := hhit e he hcontra.1
  rw [this.2] at hcontra
  simp at hcontra

/-- At most one creation call per key along any run of `get` calls. -/
theorem BindCache.creations_le_one (ks : List Nat) :
    ∀ (cache : List (Nat × Nat)) (supply key : Nat),
    creationsFor key (BindCache.getMany cache supply ks).1 ≤ 1 := by
  induction ks with
  | nil => intro cache supply key; simp [BindCache.getMany, creationsFor]
  | cons k rest ih =>
      intro cache supply key
      cases hlook : cacheLookup k cache with
      | some w =>
          have hstep : creationsFor key
              ((k, w, false) :: (BindCache.getMany cache supply rest).1) =
              creationsFor key (BindCache.getMany cache supply rest).1 := by
            simp [creationsFor, List.filter]
          simpa [BindCache.getMany, BindCache.get, hlook, hstep]
            using ih cache supply key
      | none =>
          by_cases hk : k = key
          · subst hk
            have hzero := BindCache.creations_zero rest
              ((k, supply) :: cache) (supply + 1) k supply
              (by simp [cacheLookup])
            have hstep : creationsFor k
                ((k, supply, true) ::
                  (BindCache.getMany ((k, supply) :: cache)
                    (supply + 1) rest).1) =
                creationsFor k
                  (BindCache.getMany ((k, supply) :: cache)
                    (supply + 1) rest).1 + 1 := by
              simp [creationsFor, List.filter]
            simp [BindCache.getMany, BindCache.get, hlook, hstep, hzero]
          · have hstep : creationsFor key
                ((k, supply, true) ::
                  (BindCache.getMany ((k, supply) :: cache)
                    (supply + 1) rest).1) =
                creationsFor key
                  (BindCache.getMany ((k, supply) :: cache)
                    (supply + 1) rest).1 := by
              simp [creationsFor, List.filter, hk]
            simpa [BindCache.getMany, BindCache.get, hlook, hstep]
              using ih ((k, supply) :: cache) (supply + 1) key

/-- Every trace entry's key is bound to that entry's handle in the
final cache of the run. -/
theorem BindCache.getMany_entry_bound (ks : List Nat) :
    ∀ (cache : List (Nat × Nat)) (supply : Nat),
    ∀ e ∈ (BindCache.getMany cache supply ks).1,
    cacheLookup e.1 (BindCache.getMany cache supply ks).2 = some e.2.1 := by
  induction ks with
  | nil => intro cache supply e he; simp [BindCache.getMany] at he
  | cons k rest ih =>
      intro cache supply e he
      cases hlook : cacheLookup k cache with
      | some w =>
          simp only [BindCache.getMany, BindCache.get, hlook] at he ⊢
          rcases List.mem_cons.mp he with rfl | hmem
          · exact (BindCache.getMany_hit rest cache supply k w hlook).2
          · exact ih cache supply e hmem
      | none =>
          simp only [BindCache.getMany, BindCache.get, hlook] at he ⊢
          rcases List.mem_cons.mp he with rfl | hmem
          · exact (BindCache.getMany_hit rest ((k, supply) :: cache)
              (supply + 1) k supply (by simp [cacheLookup])).2
          · exact ih ((k, supply) :: cache) (supply + 1) e hmem

/-- C5: for every `BindCache`, a second `get` with the same key
returns the identical handle and makes no creation call; and over any
sequence of `get` calls, at most one creation call is made per
distinct key, with every `get` of that key returning the one stored
handle. -/
theorem BindCache.get_at_most_one_creation (cache : List (Nat × Nat))
    (k f1 f2 : Nat) (ks : List Nat) (supply key : Nat) :
    ((BindCache.get (BindCache.get cache k f1).2.1 k f2).1 =
        (BindCache.get cache k f1).1 ∧
      (BindCache.get (BindCache.get cache k f1).2.1 k f2).2.2 = false) ∧
      creationsFor key (BindCache.getMany cache supply ks).1 ≤ 1 ∧
      ∀ e1 ∈ (BindCache.getMany cache supply ks).1,
      ∀ e2 ∈ (BindCache.getMany cache supply ks).1,
      e1.1 = key → e2.1 = key → e1.2.1 = e2.2.1 := by
  refine ⟨?_, BindCache.creations_le_one ks cache supply key, ?_⟩
  · cases hlook : cacheLookup k cache with
    | some v => constructor <;> simp [BindCache.get, hlook]
    | none => constructor <;> simp [BindCache.get, hlook, cacheLookup]
  · intro e1 he1 e2 he2 h1 h2
    have hb1 := BindCache.getMany_entry_bound ks cache supply e1 he1
    have hb2 := BindCache.getMany_entry_bound ks cache supply e2 he2
    rw [h1] at hb1
    rw [h2] at hb2
    rw [hb1] at hb2
    exact Option.some.inj hb2

/-! ## Lemmas about the instance-buffer pool -/

/-- If the `min_by` accumulator comes back empty, it went in empty and
no scanned buffer was eligible (`free` with sufficient size). -/
theorem minFreeFitAux_eq_none (req : Nat) :
    ∀ (l : List InstanceBuffer) (i : Nat) (acc : Option (Nat × Nat)),
    minFreeFitAux req i l acc = none →
    acc = none ∧ ∀ k, k < l.length →
      ¬((l.getD k ⟨0, false⟩).free = true ∧
        req ≤ (l.getD k ⟨0, false⟩).size) := by
  intro l
  induction l with
  | nil =>
      intro i acc h
      refine ⟨by simpa [minFreeFitAux] using h, ?_⟩
      intro k hk; simp at hk
  | cons b rest ih =>
      intro i acc h
      simp only [minFreeFitAux] at h
      by_cases hb : b.free = true ∧ req ≤ b.size
      · rw [if_pos (by simp [hb.1, hb.2])] at h
        have hacc' := (ih (i + 1) _ h).1
        exfalso
        cases acc with
        | none => simp at hacc'
        | some p =>
            obtain ⟨j, s⟩ := p
            by_cases hlt : b.size < s
            · simp [hlt] at hacc'
            · simp [hlt] at hacc'
      · rw [if_neg (by
          intro hcon
          simp only [Bool.and_eq_true, decide_eq_true_eq] at hcon
          exact hb hcon)] at h
        obtain ⟨hacc, hrest⟩ := ih (i + 1) acc h
        refine ⟨hacc, ?_⟩
        intro k hk
        cases k with
        | zero => simpa using hb
        | succ k' => simpa using hrest k' (by simpa using hk)

/-- If some buffer is eligible, the scan starting from an empty
accumulator finds one. -/
theorem minFreeFit_isSome_of_fit (pool : List InstanceBuffer)
    (req : Nat) (k : Nat) (hk : k < pool.length)
    (hfree : (pool.getD k ⟨0, false⟩).free = true)
    (hsz : req ≤ (pool.getD k ⟨0, false⟩).size) :
    (minFreeFit pool req).isSome := by
  rw [minFreeFit]
  cases haux : minFreeFitAux req 0 pool none with
  | none =>
      exact absurd ⟨hfree, hsz⟩
        ((minFreeFitAux_eq_none req pool 0 none haux).2 k hk)
  | some p => rfl

/-- `markNonFree` keeps the pool length. -/
theorem markNonFree_length :
    ∀ (i : Nat) (l : List InstanceBuffer),
    (markNonFree i l).length = l.length := by
  intro i l
  induction l generalizing i with
  | nil => cases i <;> rfl
  | cons b rest ih =>
      cases i with
      | zero => rfl
      | succ i' => simp [markNonFree, ih i']

/-- `markNonFree` keeps every buffer's size. -/
theorem markNonFree_getD_size :
    ∀ (i : Nat) (l : List InstanceBuffer) (k : Nat),
    ((markNonFree i l).getD k ⟨0, false⟩).size =
      (l.getD k ⟨0, false⟩).size := by
  intro i
  induction i with
  | zero =>
      intro l k
      cases l with
      | nil => rfl
      | cons b rest => cases k <;> rfl
  | succ i' ih =>
      intro l k
      cases l with
      | nil => rfl
      | cons b rest =>
          cases k with
          | zero => rfl
          | succ k' => simpa [markNonFree] using ih rest k'

/-- The marked buffer comes back non-free. -/
theorem markNonFree_getD_free :
    ∀ (i : Nat) (l : List InstanceBuffer), i < l.length →
    ((markNonFree i l).getD i ⟨0, false⟩).free = false := by
  intro i
  induction i with
  | zero =>
      intro l hl
      cases l with
      | nil => simp at hl
      | cons b rest => rfl
  | succ i' ih =>
      intro l hl
      cases l with
      | nil => simp at hl
      | cons b rest => simpa [markNonFree] using ih rest (by simpa using hl)

/-- A non-empty `min_by` result is either the incoming accumulator or
an eligible scanned buffer, whose recorded value is its size and whose
recorded index is its position. -/
theorem minFreeFitAux_eq_some_src (req : Nat) :
    ∀ (l : List InstanceBuffer) (i : Nat) (acc : Option (Nat × Nat))
      (j s : Nat),
    minFreeFitAux req i l acc = some (j, s) →
    acc = some (j, s) ∨
      ∃ k, k < l.length ∧ j = i + k ∧
        (l.getD k ⟨0, false⟩).free = true ∧
        req ≤ (l.getD k ⟨0, false⟩).size ∧
        s = (l.getD k ⟨0, false⟩).size := by
  intro l
  induction l with
  | nil =>
      intro i acc j s h
      exact Or.inl (by simpa [minFreeFitAux] using h)
  | cons b rest ih =>
      intro i acc j s h
      simp only [minFreeFitAux] at h
      by_cases hb : b.free = true ∧ req ≤ b.size
      · rw [if_pos (by simp [hb.1, hb.2])] at h
        cases acc with
        | none =>
            rcases ih (i + 1) (some (i, b.size)) j s h with hacc | hk
            · obtain ⟨h1, h2⟩ : i = j ∧ b.size = s := by simpa using hacc
              exact Or.inr ⟨0, by simp, by omega, by simpa [h2.symm] using
                ⟨hb.1, hb.2⟩⟩
            · obtain ⟨k, hk1, hk2, hk3⟩ := hk
              exact Or.inr ⟨k + 1, by simpa using hk1, by omega,
                by simpa using hk3⟩
        | some p =>
            obtain ⟨j0, s0⟩ := p
            replace h : minFreeFitAux req (i + 1) rest
                (if b.size < s0 then some (i, b.size) else some (j0, s0)) =
                some (j, s) := h
            by_cases hlt : b.size < s0
            · rw [if_pos hlt] at h
              rcases ih (i + 1) (some (i, b.size)) j s h with hacc | hk
              · obtain ⟨h1, h2⟩ : i = j ∧ b.size = s := by simpa using hacc
                exact Or.inr ⟨0, by simp, by omega, by simpa [h2.symm] using
                  ⟨hb.1, hb.2⟩⟩
              · obtain ⟨k, hk1, hk2, hk3⟩ := hk
                exact Or.inr ⟨k + 1, by simpa using hk1, by omega,
                  by simpa using hk3⟩
            · rw [if_neg hlt] at h
              rcases ih (i + 1) (some (j0, s0)) j s h with hacc | hk
              · exact Or.inl (by simpa using hacc)
              · obtain ⟨k, hk1, hk2, hk3⟩ := hk
                exact Or.inr ⟨k + 1, by simpa using hk1, by omega,
                  by simpa using hk3⟩
      · rw [if_neg (by
          intro hcon
          simp only [Bool.and_eq_true, decide_eq_true_eq] at hcon
          exact hb hcon)] at h
        rcases ih (i + 1) acc j s h with hacc | hk
        · exact Or.inl hacc
        · obtain ⟨k, hk1, hk2, hk3⟩ := hk
          exact Or.inr ⟨k + 1, by simpa using hk1, by omega,
            by simpa using hk3⟩

/-- A non-empty `min_by` result is no larger than the incoming
accumulator's value and than every eligible scanned buffer's size
(best-fit minimality). -/
theorem minFreeFitAux_eq_some_min (req : Nat) :
    ∀ (l : List InstanceBuffer) (i : Nat) (acc : Option (Nat × Nat))
      (j s : Nat),
    minFreeFitAux req i l acc = some (j, s) →
    (∀ j0 s0, acc = some (j0, s0) → s ≤ s0) ∧
      ∀ k, k < l.length → (l.getD k ⟨0, false⟩).free = true →
      req ≤ (l.getD k ⟨0, false⟩).size →
      s ≤ (l.getD k ⟨0, false⟩).size := by
  intro l
  induction l with
  | nil =>
      intro i acc j s h
      refine ⟨?_, by intro k hk; simp at hk⟩
      intro j0 s0 hacc
      rw [hacc] at h
      obtain ⟨h1, h2⟩ : j0 = j ∧ s0 = s := by simpa [minFreeFitAux] using h
      omega
  | cons b rest ih =>
      intro i acc j s h
      simp only [minFreeFitAux] at h
      by_cases hb : b.free = true ∧ req ≤ b.size
      · rw [if_pos (by simp [hb.1, hb.2])] at h
        have hhead : s ≤ b.size := by
          cases acc with
          | none => exact (ih (i + 1) _ j s h).1 i b.size rfl
          | some p =>
              obtain ⟨j0, s0⟩ := p
              have h2 : minFreeFitAux req (i + 1) rest
                  (if b.size < s0 then some (i, b.size) else some (j0, s0)) =
                  some (j, s) := h
              by_cases hlt : b.size < s0
              · rw [if_pos hlt] at h2
                exact (ih (i + 1) _ j s h2).1 i b.size rfl
              · rw [if_neg hlt] at h2
                have := (ih (i + 1) _ j s h2).1 j0 s0 rfl
                omega
        refine ⟨?_, ?_⟩
        · intro j0 s0 hacc
          rw [hacc] at h
          replace h : minFreeFitAux req (i + 1) rest
              (if b.size < s0 then some (i, b.size) else some (j0, s0)) =
              some (j, s) := h
          by_cases hlt : b.size < s0
          · rw [if_pos hlt] at h
            have := (ih (i + 1) _ j s h).1 i b.size rfl
            omega
          · rw [if_neg hlt] at h
            exact (ih (i + 1) _ j s h).1 j0 s0 rfl
        · intro k hk
          cases k with
          | zero => intro _ _; simpa using hhead
          | succ k' =>
              intro hf hsz
              cases acc with
              | none =>
                  exact (ih (i + 1) _ j s h).2 k' (by simpa using hk)
                    (by simpa using hf) (by simpa using hsz)
              | some p =>
                  obtain ⟨j0, s0⟩ := p
                  replace h : minFreeFitAux req (i + 1) rest
                      (if b.size < s0 then some (i, b.size)
                        else some (j0, s0)) = some (j, s) := h
                  by_cases hlt : b.size < s0
                  · rw [if_pos hlt] at h
                    exact (ih (i + 1) _ j s h).2 k' (by simpa using hk)
                      (by simpa using hf) (by simpa using hsz)
                  · rw [if_neg hlt] at h
                    exact (ih (i + 1) _ j s h).2 k' (by simpa using hk)
                      (by simpa using hf) (by simpa using hsz)
      · rw [if_neg (by
          intro hcon
          simp only [Bool.and_eq_true, decide_eq_true_eq] at hcon
          exact hb hcon)] at h
        refine ⟨(ih (i + 1) acc j s h).1, ?_⟩
        intro k hk
        cases k with
        | zero =>
            intro hf hsz
            exact absurd ⟨by simpa using hf, by simpa using hsz⟩ hb
        | succ k' =>
            intro hf hsz
            exact (ih (i + 1) acc j s h).2 k' (by simpa using hk)
              (by simpa using hf) (by simpa using hsz)

/-- `freePool` keeps the length and the sizes and sets every flag. -/
theorem freePool_getD (l : List InstanceBuffer) (k : Nat)
    (hk : k < l.length) :
    (freePool l).length = l.length ∧
      (freePool l).getD k ⟨0, false⟩ =
        ⟨(l.getD k ⟨0, false⟩).size, true⟩ := by
  refine ⟨by simp [freePool], ?_⟩
  rw [freePool, List.getD_eq_getElem _ _ (by simpa using hk),
    List.getD_eq_getElem _ _ hk]
  simp

/-- C3: the instance buffer chosen by `BatchRenderer::draw` for a
batch of `S` bytes is a free pool buffer of minimal size among those
with `size ≥ S` (best-fit), and it is marked non-free; in particular
with free buffers of sizes `{100, 50, 200}` and a request of 60 bytes
the 100-sized buffer (index 0) is chosen.  If no free buffer is large
enough, a new buffer of size exactly `S`, already non-free, is
appended to the pool and chosen. -/
theorem drawSelect_best_fit (pool : List InstanceBuffer) (S : Nat) :
    (∀ i, minFreeFit pool S = some i →
      i < pool.length ∧
      (pool.getD i ⟨0, false⟩).free = true ∧
      S ≤ (pool.getD i ⟨0, false⟩).size ∧
      (∀ j, j < pool.length → (pool.getD j ⟨0, false⟩).free = true →
        S ≤ (pool.getD j ⟨0, false⟩).size →
        (pool.getD i ⟨0, false⟩).size ≤ (pool.getD j ⟨0, false⟩).size) ∧
      drawSelect pool S = (i, markNonFree i pool) ∧
      ((markNonFree i pool).getD i ⟨0, false⟩).free = false ∧
      (markNonFree i pool).length = pool.length) ∧
    ((∀ j, j < pool.length → ¬((pool.getD j ⟨0, false⟩).free = true ∧
        S ≤ (pool.getD j ⟨0, false⟩).size)) →
      drawSelect pool S = (pool.length, pool ++ [⟨S, false⟩])) ∧
    drawSelect [⟨100, true⟩, ⟨50, true⟩, ⟨200, true⟩] 60 =
      (0, [⟨100, false⟩, ⟨50, true⟩, ⟨200, true⟩]) := by
  refine ⟨?_, ?_, by decide⟩
  · intro i hi
    have hmf := hi
    rw [minFreeFit] at hi
    cases haux : minFreeFitAux S 0 pool none with
    | none => rw [haux] at hi; cases hi
    | some p =>
        obtain ⟨j', sz⟩ := p
        rw [haux] at hi
        have hji : j' = i := by simpa using hi
        subst hji
        rcases minFreeFitAux_eq_some_src S pool 0 none j' sz haux with
          hacc | ⟨k, hk, hjk, hfree, hsz, hszeq⟩
        · cases hacc
        · have hkj : k = j' := by omega
          subst hkj
          have hmin := (minFreeFitAux_eq_some_min S pool 0 none k sz haux).2
          refine ⟨hk, hfree, hsz, ?_, ?_, markNonFree_getD_free k pool hk,
            markNonFree_length k pool⟩
          · intro j hj hjf hjsz
            rw [← hszeq]
            exact hmin j hj hjf hjsz
          · rw [drawSelect, hmf]
  · intro hnone
    have hmf : minFreeFit pool S = none := by
      rw [minFreeFit]
      cases haux : minFreeFitAux S 0 pool none with
      | none => rfl
      | some p =>
          obtain ⟨j', sz⟩ := p
          rcases minFreeFitAux_eq_some_src S pool 0 none j' sz haux with
            hacc | ⟨k, hk, hjk, hfree, hsz, hszeq⟩
          · cases hacc
          · exact absurd ⟨hfree, hsz⟩ (hnone k hk)
    rw [drawSelect, hmf]

/-- Witness for C3 at a concrete pool: free buffers of sizes
`{100, 50, 200}` and a 60-byte request select index 0 (the 100-sized
buffer). -/
theorem drawSelect_best_fit_check :
    ((0 : Nat) < ([⟨100, true⟩, ⟨50, true⟩,
        (⟨200, true⟩ : InstanceBuffer)]).length ∧
      (([⟨100, true⟩, ⟨50, true⟩,
        (⟨200, true⟩ : InstanceBuffer)]).getD 0 ⟨0, false⟩).free = true ∧
      60 ≤ (([⟨100, true⟩, ⟨50, true⟩,
        (⟨200, true⟩ : InstanceBuffer)]).getD 0 ⟨0, false⟩).size ∧
      (∀ j, j < ([⟨100, true⟩, ⟨50, true⟩,
          (⟨200, true⟩ : InstanceBuffer)]).length →
        (([⟨100, true⟩, ⟨50, true⟩,
          (⟨200, true⟩ : InstanceBuffer)]).getD j ⟨0, false⟩).free = true →
        60 ≤ (([⟨100, true⟩, ⟨50, true⟩,
          (⟨200, true⟩ : InstanceBuffer)]).getD j ⟨0, false⟩).size →
        (([⟨100, true⟩, ⟨50, true⟩,
          (⟨200, true⟩ : InstanceBuffer)]).getD 0 ⟨0, false⟩).size ≤
          (([⟨100, true⟩, ⟨50, true⟩,
            (⟨200, true⟩ : InstanceBuffer)]).getD j ⟨0, false⟩).size) ∧
      drawSelect [⟨100, true⟩, ⟨50, true⟩, ⟨200, true⟩] 60 =
        (0, markNonFree 0 [⟨100, true⟩, ⟨50, true⟩, ⟨200, true⟩]) ∧
      ((markNonFree 0 [⟨100, true⟩, ⟨50, true⟩,
        (⟨200, true⟩ : InstanceBuffer)]).getD 0 ⟨0, false⟩).free = false ∧
      (markNonFree 0 [⟨100, true⟩, ⟨50, true⟩,
        (⟨200, true⟩ : InstanceBuffer)]).length =
        ([⟨100, true⟩, ⟨50, true⟩,
          (⟨200, true⟩ : InstanceBuffer)]).length) :=
  (drawSelect_best_fit [⟨100, true⟩, ⟨50, true⟩, ⟨200, true⟩] 60).1 0
    (by decide)

/-- C9: draw a batch of `S` bytes, `free()` the pool, draw another
batch of the same `S` bytes: the second draw reuses an already-pooled
buffer (its chosen index is in range, i.e. the reuse branch is taken)
and the pool does not grow. -/
theorem drawSelect_reuse_after_free (pool : List InstanceBuffer)
    (S : Nat) :
    (drawSelect (freePool (drawSelect pool S).2) S).1 <
      (freePool (drawSelect pool S).2).length ∧
      (drawSelect (freePool (drawSelect pool S).2) S).2.length =
        (drawSelect pool S).2.length := by
  obtain ⟨k, hk, hksz⟩ :
      ∃ k, k < (drawSelect pool S).2.length ∧
        S ≤ ((drawSelect pool S).2.getD k ⟨0, false⟩).size := by
    cases hmf : minFreeFit pool S with
    | some i =>
        rw [minFreeFit] at hmf
        cases haux : minFreeFitAux S 0 pool none with
        | none => rw [haux] at hmf; cases hmf
        | some p =>
            obtain ⟨j', sz⟩ := p
            rw [haux] at hmf
            have hji : j' = i := by simpa using hmf
            subst hji
            rcases minFreeFitAux_eq_some_src S pool 0 none j' sz haux with
              hacc | ⟨k, hk, hjk, hfree, hsz, hszeq⟩
            · cases hacc
            · have hkj : k = j' := by omega
              subst hkj
              have hsel : drawSelect pool S = (k, markNonFree k pool) := by
                rw [drawSelect, minFreeFit, haux]; rfl
              refine ⟨k, ?_, ?_⟩
              · rw [hsel]
                simpa [markNonFree_length] using hk
              · rw [hsel]
                show S ≤ ((markNonFree k pool).getD k ⟨0, false⟩).size
                rw [markNonFree_getD_size]
                exact hsz
    | none =>
        have hsel : drawSelect pool S =
            (pool.length, pool ++ [⟨S, false⟩]) := by
          rw [drawSelect, hmf]
        refine ⟨pool.length, ?_, ?_⟩
        · rw [hsel]; simp
        · rw [hsel]
          simp [List.getD]
  have hfp := freePool_getD (drawSelect pool S).2 k hk
  have hk2 : k < (freePool (drawSelect pool S).2).length := by
    rw [hfp.1]; exact hk
  have hfree2 :
      ((freePool (drawSelect pool S).2).getD k ⟨0, false⟩).free = true := by
    rw [hfp.2]
  have hsz2 :
      S ≤ ((freePool (drawSelect pool S).2).getD k ⟨0, false⟩).size := by
    rw [hfp.2]; exact hksz
  have hsome := minFreeFit_isSome_of_fit (freePool (drawSelect pool S).2)
    S k hk2 hfree2 hsz2
  cases hmf2 : minFreeFit (freePool (drawSelect pool S).2) S with
  | none => rw [hmf2] at hsome; cases hsome
  | some i2 =>
      have hi2lt : i2 < (freePool (drawSelect pool S).2).length := by
        rw [minFreeFit] at hmf2
        cases haux : minFreeFitAux S 0 (freePool (drawSelect pool S).2)
            none with
        | none => rw [haux] at hmf2; cases hmf2
        | some p =>
            obtain ⟨j', sz⟩ := p
            rw [haux] at hmf2
            have hji : j' = i2 := by simpa using hmf2
            subst hji
            rcases minFreeFitAux_eq_some_src S
              (freePool (drawSelect pool S).2) 0 none j' sz haux with
              hacc | ⟨k', hk', hjk', _, _, _⟩
            · cases hacc
            · omega
      have hsel2 : drawSelect (freePool (drawSelect pool S).2) S =
          (i2, markNonFree i2 (freePool (drawSelect pool S).2)) := by
        rw [drawSelect, hmf2]
      rw [hsel2]
      exact ⟨hi2lt, by rw [markNonFree_length, hfp.1]⟩

/-- Witness for C5: key 7 queried twice from an empty cache — one
creation, identical handles. -/
theorem BindCache.get_at_most_one_creation_check :
    ((BindCache.get (BindCache.get [] 7 10).2.1 7 11).1 =
        (BindCache.get [] 7 10).1 ∧
      (BindCache.get (BindCache.get [] 7 10).2.1 7 11).2.2 = false) ∧
      creationsFor 7 (BindCache.getMany [] 20 [7, 9, 7]).1 ≤ 1 ∧
      ∀ e1 ∈ (BindCache.getMany [] 20 [7, 9, 7]).1,
      ∀ e2 ∈ (BindCache.getMany [] 20 [7, 9, 7]).1,
      e1.1 = 7 → e2.1 = 7 → e1.2.1 = e2.2.1 :=
  BindCache.get_at_most_one_creation [] 7 10 11 [7, 9, 7] 20 7

end E2
